import Mathlib

/-!
# Verification of the parallel file scanner

This development embeds the directory-scanning programs of this repository
(`landrys-file-scanner.cpp`, its unnamed near-duplicate, and `fast_scan4.cpp`)
in Lean and proves properties of the traversal engine: the shared work queue,
the active-directory counter, the worker loop, the filter stage and the
buffered output sink.

Modelling conventions:
* Wide strings (`std::wstring`) are lists of natural numbers (UTF-16 code
  units); none of the strings handled here contain NUL units.
* `towlower` is modelled on the "C" locale (the programs never call
  `setlocale`), where only ASCII `A`-`Z` are mapped.
* The Win32 enumeration primitive (`FindFirstFileExW`/`FindNextFileW`) is
  modelled by a finite tree of entries; an enumeration of a directory yields
  the `.` and `..` entries followed by the real children, matching the API.
  A directory whose enumeration fails (`INVALID_HANDLE_VALUE`: access denied
  or path vanished) is modelled by the constructor `FSEntry.dirFail`.
* `WideCharToMultiByte(CP_UTF8, ...)` is an external platform primitive; it
  is a parameter `utf8` of the configuration, returning `none` when the
  conversion reports failure (`utf8_len <= 0`).
-/

namespace FileScanner

/-- Wide string: list of UTF-16 code units. -/
abbrev WStr := List Nat

/-- Build a wide string from a Lean string literal (all characters used in
this development are in the BMP, one code unit per character). -/
def wstr (s : String) : WStr := s.toList.map Char.toNat

/-- `towlower` in the "C" locale: only ASCII uppercase letters are mapped. -/
def towlower (c : Nat) : Nat := if 65 ≤ c ∧ c ≤ 90 then c + 32 else c

/-- Lowercase every unit of a wide string. -/
def lowerW (s : WStr) : WStr := s.map towlower

/-- The check `cFileName[0]=='.' && (cFileName[1]==0 || (cFileName[1]=='.'
&& cFileName[2]==0))` used by all three programs to skip the `.` and `..`
self-reference entries (46 is `'.'`). -/
def isDotName (n : WStr) : Bool := n == [46] || n == [46, 46]

/-- Path concatenation `dir + L"\\" + name` (92 is `'\\'`). -/
def childPath (d n : WStr) : WStr := d ++ 92 :: n

/-- Whether `pat` occurs at the front of `s` (unit-exact). -/
def isPre : WStr → WStr → Bool
  | [], _ => true
  | _ :: _, [] => false
  | a :: as, b :: bs => a == b && isPre as bs

/-- `s.find(pat) != std::wstring::npos`: case-sensitive substring search. -/
def hasSub (pat : WStr) : WStr → Bool
  | [] => pat == []
  | c :: rest => isPre pat (c :: rest) || hasSub pat rest

/-- The top-level directory filter `PREFIX.empty() || _wcsnicmp(cFileName,
PREFIX.c_str(), PREFIX.size()) == 0`: the name starts, case-insensitively,
with the configured folder filter (which contains no NUL). -/
def topPrefixOk (pfx name : WStr) : Bool :=
  pfx == [] ||
    (decide (pfx.length ≤ name.length) &&
      lowerW (name.take pfx.length) == lowerW pfx)

/-- The deeper-level directory filter from `process_directory`
(`landrys-file-scanner.cpp` line 192): a subdirectory is kept unless
`!PREFIX.empty() && subdir.find(PREFIX) == std::wstring::npos`.
`std::wstring::find` is a case-sensitive search of the full path. -/
def deepFilter (pfx sub : WStr) : Bool := pfx == [] || hasSub pfx sub

/-- Spec-side variant of the deeper-level filter, following the words of the
specification and of claim C5: the full path contains the configured folder
filter as a substring under a *case-insensitive* comparison.  Compared
against `deepFilter`, which is what the code computes. -/
def deepFilterCI (pfx sub : WStr) : Bool :=
  pfx == [] || hasSub (lowerW pfx) (lowerW sub)

/-- `full_path.substr(full_path.find_last_of(L".") + 1)`: the suffix after
the last `'.'` of the string; when the string contains no `'.'`,
`find_last_of` returns `npos` and `npos + 1` wraps to `0`, so the whole
string is returned. -/
def afterLastDot (s : WStr) : WStr :=
  (s.reverse.takeWhile (fun c => c != 46)).reverse

/-- `_wcsicmp(a, b) == 0` for NUL-free strings: equal after lowering. -/
def wcsicmpEq (a b : WStr) : Bool := lowerW a == lowerW b

/-- The extension filter of `process_directory`: a file is kept when the
configured list is empty, or when the suffix of the *full path* after its
last `'.'` equals one of the configured extensions case-insensitively. -/
def extFilter (types : List WStr) (fullPath : WStr) : Bool :=
  types == [] || types.any (fun ext => wcsicmpEq (afterLastDot fullPath) ext)

/-! ## The filesystem model -/

mutual
/-- One directory entry as reported by the enumeration primitive. -/
inductive FSEntry : Type where
  | file : WStr → FSEntry
  | dirFail : WStr → FSEntry
  | dir : WStr → FSListing → FSEntry
/-- The children of a directory, in enumeration order. -/
inductive FSListing : Type where
  | lnil : FSListing
  | lcons : FSEntry → FSListing → FSListing
end

deriving instance DecidableEq for FSEntry
deriving instance DecidableEq for FSListing

/-- The name of an entry (`cFileName`). -/
def entryName : FSEntry → WStr
  | .file n => n
  | .dirFail n => n
  | .dir n _ => n

/-- The underlying list of children of a listing. -/
def toListE : FSListing → List FSEntry
  | .lnil => []
  | .lcons e l => e :: toListE l

/-- A complete enumeration of a directory as produced by
`FindFirstFileExW`/`FindNextFileW`: the `.` and `..` self-references (both
carrying `FILE_ATTRIBUTE_DIRECTORY`), then the children.  The subtree
attached to the synthetic `.`/`..` entries is irrelevant: every filter
inspects only names and paths, and the programs under study never resolve
those entries (path resolution of `.`/`..` is not modelled). -/
def listingList (l : FSListing) : List FSEntry :=
  .dir (wstr ".") .lnil :: .dir (wstr "..") .lnil :: toListE l

/-- A pending directory: its absolute path, and its children — `none` when
its later enumeration will fail with `INVALID_HANDLE_VALUE`. -/
abbrev Pending := WStr × Option FSListing

/-- The configuration consumed by the core (produced by the out-of-scope
argument parser): folder filter, extension list, buffer flush count, and
the platform UTF-16 → UTF-8 conversion primitive. -/
structure Config where
  pfx : WStr
  fileTypes : List WStr
  flushCount : Nat
  utf8 : WStr → Option (List Nat)

/-- The body of the enumeration loop of `process_directory`
(`landrys-file-scanner.cpp` lines 179-251) for a single entry of directory
`d`: the subdirectories it enqueues and the output lines it produces.
Directory entries named `.`/`..` are skipped; other directories are
enqueued iff they pass `deepFilter`; files passing `extFilter` whose UTF-8
conversion succeeds yield one output line. -/
def procEntry (cfg : Config) (d : WStr) : FSEntry → List Pending × List (List Nat)
  | .dir n l =>
      if isDotName n then ([], [])
      else
        let sub := childPath d n
        if deepFilter cfg.pfx sub then ([(sub, some l)], []) else ([], [])
  | .dirFail n =>
      if isDotName n then ([], [])
      else
        let sub := childPath d n
        if deepFilter cfg.pfx sub then ([(sub, none)], []) else ([], [])
  | .file n =>
      let fp := childPath d n
      if extFilter cfg.fileTypes fp then
        match cfg.utf8 fp with
        | some bs => ([], [bs])
        | none => ([], [])
      else ([], [])

mutual
/-- The canonical (schedule-free) multiline output contributed by one entry
of directory `d`: what a full recursive traversal of its subtree emits. -/
def entryLines (cfg : Config) (d : WStr) : FSEntry → List (List Nat)
  | .file n =>
      let fp := childPath d n
      if extFilter cfg.fileTypes fp then
        match cfg.utf8 fp with
        | some bs => [bs]
        | none => []
      else []
  | .dirFail _ => []
  | .dir n l =>
      if isDotName n then []
      else
        if deepFilter cfg.pfx (childPath d n) then
          listingLines cfg (childPath d n) l
        else []
/-- Canonical output of all entries of a listing, in listing order. -/
def listingLines (cfg : Config) (d : WStr) : FSListing → List (List Nat)
  | .lnil => []
  | .lcons e l => entryLines cfg d e ++ listingLines cfg d l
end

/-- Canonical output still owed by a pending directory. -/
def pendLines (cfg : Config) : Pending → List (List Nat)
  | (_, none) => []
  | (p, some l) => listingLines cfg p l

/-- One entry of the seeding loop of `initialize_directory_queue`
(`landrys-file-scanner.cpp` lines 130-151): only directory-attributed
entries are considered, `.`/`..` are skipped, and the top-level prefix
filter is applied to the *name*. -/
def seedEntry (cfg : Config) (root : WStr) : FSEntry → List Pending
  | .file _ => []
  | .dirFail n =>
      if isDotName n then []
      else if topPrefixOk cfg.pfx n then [(childPath root n, none)] else []
  | .dir n l =>
      if isDotName n then []
      else if topPrefixOk cfg.pfx n then [(childPath root n, some l)] else []

/-- `initialize_directory_queue`: the work queue seeded from the enumeration
of the root (the same loop appears in the unnamed duplicate source). -/
def initialize_directory_queue (cfg : Config) (root : WStr) (rootL : FSListing) :
    List Pending :=
  ((listingList rootL).map (seedEntry cfg root)).flatten

/-- One entry of the seeding loop of `fast_scan4.cpp` (`main`, lines
149-168): directory-attributed entries passing the prefix check are
enqueued.  Unlike the other two programs, this loop has **no** `.`/`..`
skip. -/
def fastScan4SeedEntry (pfx root : WStr) : FSEntry → List Pending
  | .file _ => []
  | .dirFail n =>
      if topPrefixOk pfx n then [(childPath root n, none)] else []
  | .dir n l =>
      if topPrefixOk pfx n then [(childPath root n, some l)] else []

/-- The seeding of `fast_scan4.cpp`. -/
def fastScan4Seed (pfx root : WStr) (rootL : FSListing) : List Pending :=
  ((listingList rootL).map (fastScan4SeedEntry pfx root)).flatten

/-! ## The concurrent scan: state machine

One transition of the machine corresponds to a critical section or a
lock-free section of one thread of `directory_processing_worker` /
`worker_thread`, or to the coordinator's shutdown logic in `main`:

* `dequeue`   — the region holding `q_m`: the wait predicate
  `!dir_queue.empty() || done` has fired with a non-empty queue, the front
  entry is popped and the worker owns it (it is "being enumerated" from now
  until its decrement);
* `exitW`     — the wait predicate fired with `done && dir_queue.empty()`:
  the worker breaks out of its loop and performs its final flush;
* `failDir`   — `FindFirstFileExW` returned `INVALID_HANDLE_VALUE`: the
  worker decrements `active_dir_count` and returns to the queue;
* `stepEntry` — one iteration of the `do/while (FindNextFileW)` loop:
  a subdirectory push together with its `active_dir_count++` happens under
  `q_m` (so it is one atomic transition), a file emission appends to the
  worker-private buffer and bumps the atomic `file_count`, then flushes
  under `out_m` when the byte threshold is crossed;
* `finishDir` — `FindClose` plus the trailing `active_dir_count--`;
* `setDone`   — the coordinator observed `active_dir_count == 0 &&
  dir_queue.empty()` under `q_m`, stores `done = true` and calls
  `q_cv.notify_all()` (together with the 50 ms `wait_for` polling this rules
  out missed wakeups, which is why blocked waits are modelled purely as
  transition enabledness).

Buffers are worker-private and `file_count` is atomic, so folding a file
emission, its count increment and a possible flush into one transition does
not lose interleavings observable by any other thread. -/

/-- What one worker thread is doing. -/
inductive Phase : Type where
  | idle : Phase
  | run : WStr → Option (List FSEntry) → Phase
  | exited : Phase
deriving DecidableEq

/-- A worker thread: its phase and its private output buffer
(`local_out_buf`), kept as the list of lines it holds. -/
structure Worker where
  phase : Phase
  buf : List (List Nat)
deriving DecidableEq

/-- The shared state of one scan. -/
structure ScanState where
  queue : List Pending
  active : Int
  isDone : Bool
  ws : List Worker
  sink : List (List Nat)
  count : Nat
deriving DecidableEq

/-- Byte size of a buffer: each line costs its length plus the `'\n'`. -/
def bufBytes (b : List (List Nat)) : Nat := (b.map (fun l => l.length + 1)).sum

/-- Effect of one `do/while` iteration of `process_directory` on the state:
enqueue (with counter increment, under the queue lock), emit (buffer append
plus `file_count` increment), and flush when
`local_out_buf.size() >= OUTPUT_BUFFER_FLUSH_COUNT * 256` — the check runs
only in the branch where a line was appended, as in the source. -/
def applyEntry (cfg : Config) (s : ScanState) (pre post : List Worker)
    (p : WStr) (e : FSEntry) (es : List FSEntry) (b : List (List Nat)) :
    ScanState :=
  let pr := procEntry cfg p e
  let b1 := b ++ pr.2
  let doFlush := pr.2 != [] && decide (cfg.flushCount * 256 ≤ bufBytes b1)
  { s with
    queue := s.queue ++ pr.1
    active := s.active + pr.1.length
    count := s.count + pr.2.length
    ws := pre ++ ⟨.run p (some es), if doFlush then [] else b1⟩ :: post
    sink := if doFlush then s.sink ++ b1 else s.sink }

/-- The transition relation of the scan. -/
inductive Step (cfg : Config) : ScanState → ScanState → Prop where
  | dequeue (s : ScanState) (pd : Pending) (rest : List Pending)
      (pre post : List Worker) (b : List (List Nat))
      (hq : s.queue = pd :: rest)
      (hw : s.ws = pre ++ ⟨.idle, b⟩ :: post) :
      Step cfg s { s with
        queue := rest
        ws := pre ++ ⟨.run pd.1 (pd.2.map listingList), b⟩ :: post }
  | exitW (s : ScanState) (pre post : List Worker) (b : List (List Nat))
      (hd : s.isDone = true) (hq : s.queue = [])
      (hw : s.ws = pre ++ ⟨.idle, b⟩ :: post) :
      Step cfg s { s with
        ws := pre ++ ⟨.exited, []⟩ :: post
        sink := s.sink ++ b }
  | failDir (s : ScanState) (pre post : List Worker) (p : WStr)
      (b : List (List Nat))
      (hw : s.ws = pre ++ ⟨.run p none, b⟩ :: post) :
      Step cfg s { s with
        active := s.active - 1
        ws := pre ++ ⟨.idle, b⟩ :: post }
  | stepEntry (s : ScanState) (pre post : List Worker) (p : WStr)
      (e : FSEntry) (es : List FSEntry) (b : List (List Nat))
      (hw : s.ws = pre ++ ⟨.run p (some (e :: es)), b⟩ :: post) :
      Step cfg s (applyEntry cfg s pre post p e es b)
  | finishDir (s : ScanState) (pre post : List Worker) (p : WStr)
      (b : List (List Nat))
      (hw : s.ws = pre ++ ⟨.run p (some []), b⟩ :: post) :
      Step cfg s { s with
        active := s.active - 1
        ws := pre ++ ⟨.idle, b⟩ :: post }
  | setDone (s : ScanState)
      (hd : s.isDone = false) (ha : s.active = 0) (hq : s.queue = []) :
      Step cfg s { s with isDone := true }

/-- The state after seeding, before the worker pool starts: the queue holds
the seeded directories, `active_dir_count` equals the number of pushes the
seeding performed, and `W` idle workers with empty buffers are launched. -/
def initState (W : Nat) (seed : List Pending) : ScanState :=
  { queue := seed
    active := (seed.length : Int)
    isDone := false
    ws := List.replicate W ⟨.idle, []⟩
    sink := []
    count := 0 }

/-- Reachability from the post-seeding state. -/
def Reach (cfg : Config) (W : Nat) (seed : List Pending) (s : ScanState) :
    Prop :=
  Relation.ReflTransGen (Step cfg) (initState W seed) s

/-- A state from which no thread can move: the scan has completed. -/
def Terminal (cfg : Config) (s : ScanState) : Prop :=
  ∀ s', ¬ Step cfg s s'

/-- Number of workers currently enumerating a dequeued directory. -/
def nRun (ws : List Worker) : Nat :=
  ws.countP (fun w => match w.phase with | .run _ _ => true | _ => false)

/-- Number of workers that have not exited their loop. -/
def nonExited (ws : List Worker) : Nat :=
  ws.countP (fun w => match w.phase with | .exited => false | _ => true)

/-! ## Termination measure -/

mutual
/-- Remaining worker steps needed to consume one enumeration entry and its
whole subtree (the `.`/`..` entries of a listing are always skipped in one
step, so a dot-named directory entry costs `1`). -/
def ecost : FSEntry → Nat
  | .file _ => 1
  | .dirFail _ => 2
  | .dir n l => if isDotName n then 1 else 4 + lcost l
/-- Total entry cost of a listing. -/
def lcost : FSListing → Nat
  | .lnil => 0
  | .lcons e l => ecost e + lcost l
end

/-- Total entry cost of a list of entries. -/
def listCostL (es : List FSEntry) : Nat := (es.map ecost).sum

/-- Remaining steps chargeable to a queued pending directory. -/
def pendCost : Pending → Nat
  | (_, none) => 1
  | (_, some l) => 3 + lcost l

/-- Remaining steps chargeable to a worker in its current phase. -/
def phaseCost : Phase → Nat
  | .idle => 0
  | .exited => 0
  | .run _ none => 1
  | .run _ (some es) => 1 + listCostL es

/-- Outstanding enumeration work in a state. -/
def workCost (s : ScanState) : Nat :=
  (s.queue.map pendCost).sum + (s.ws.map (fun w => phaseCost w.phase)).sum

/-- A variant that strictly decreases along every transition. -/
def scanMeasure (s : ScanState) : Nat :=
  2 * workCost s + s.queue.length + nonExited s.ws +
    (if s.isDone then 0 else 1)

theorem listCostL_toListE : ∀ (l : FSListing), listCostL (toListE l) = lcost l
  | .lnil => rfl
  | .lcons e l => by
      have ih := listCostL_toListE l
      simp [toListE, listCostL, lcost] at ih ⊢
      omega

theorem listCostL_listingList (l : FSListing) :
    listCostL (listingList l) = 2 + lcost l := by
  have h := listCostL_toListE l
  simp [listingList, listCostL, ecost, isDotName, wstr] at h ⊢
  omega

theorem phaseCost_dequeue (pd : Pending) (p : WStr) :
    phaseCost (.run p (pd.2.map listingList)) = pendCost pd := by
  rcases pd with ⟨q, _ | l⟩
  · rfl
  · simp [phaseCost, pendCost, listCostL_listingList]
    omega

theorem procEntry_cost (cfg : Config) (p : WStr) (e : FSEntry) :
    2 * (((procEntry cfg p e).1.map pendCost).sum) +
      (procEntry cfg p e).1.length < 2 * ecost e := by
  cases e with
  | file n =>
      simp only [procEntry]
      split
      · cases cfg.utf8 (childPath p n) <;> simp [ecost]
      · simp [ecost]
  | dirFail n =>
      simp only [procEntry]
      split
      · simp [ecost]
      · split
        all_goals simp [pendCost, ecost]
  | dir n l =>
      simp only [procEntry]
      split
      · next hdot => simp [ecost, hdot]
      · next hdot =>
          split
          all_goals simp [pendCost, ecost, hdot]
          all_goals omega

theorem step_measure_lt {cfg : Config} {s s' : ScanState} (h : Step cfg s s') :
    scanMeasure s' < scanMeasure s := by
  cases h with
  | dequeue pd rest pre post b hq hw =>
      simp only [scanMeasure, workCost, nonExited, hq, hw, List.map_append,
        List.sum_append, List.map_cons, List.sum_cons, List.countP_append,
        List.countP_cons, List.length_cons, phaseCost_dequeue]
      simp [phaseCost]
      omega
  | exitW pre post b hd hq hw =>
      simp only [scanMeasure, workCost, nonExited, hq, hw, List.map_append,
        List.sum_append, List.map_cons, List.sum_cons, List.countP_append,
        List.countP_cons, hd]
      simp [phaseCost]
  | failDir pre post p b hw =>
      simp only [scanMeasure, workCost, nonExited, hw, List.map_append,
        List.sum_append, List.map_cons, List.sum_cons, List.countP_append,
        List.countP_cons]
      simp [phaseCost]
  | stepEntry pre post p e es b hw =>
      have hc := procEntry_cost cfg p e
      simp only [applyEntry, scanMeasure, workCost, nonExited, hw,
        List.map_append, List.sum_append, List.map_cons, List.sum_cons,
        List.countP_append, List.countP_cons, List.length_append]
      simp only [phaseCost, listCostL, List.map_cons, List.sum_cons]
      simp
      omega
  | finishDir pre post p b hw =>
      simp only [scanMeasure, workCost, nonExited, hw, List.map_append,
        List.sum_append, List.map_cons, List.sum_cons, List.countP_append,
        List.countP_cons]
      simp [phaseCost, listCostL]
  | setDone hd ha hq =>
      simp [scanMeasure, workCost, nonExited, hd]

/-! ## The master invariant -/

theorem isDotName_dot : isDotName (wstr ".") = true := by decide

theorem isDotName_dotdot : isDotName (wstr "..") = true := by decide

/-- Lines a worker in a given phase will still emit from its current
directory (the entries not yet visited by its `FindNextFileW` loop). -/
def phaseRem (cfg : Config) : Phase → Multiset (List Nat)
  | .idle => 0
  | .exited => 0
  | .run _ none => 0
  | .run p (some es) => ((es.map (entryLines cfg p)).flatten : List (List Nat))

/-- Lines a worker currently holds: its private buffer plus the remainder
of its current enumeration. -/
def wLines (cfg : Config) (w : Worker) : Multiset (List Nat) :=
  (w.buf : Multiset (List Nat)) + phaseRem cfg w.phase

/-- The canonical output of a whole scan seeded with `seed`. -/
def totalLines (cfg : Config) (seed : List Pending) : List (List Nat) :=
  (seed.map (pendLines cfg)).flatten

theorem listingLines_flatten (cfg : Config) (p : WStr) :
    ∀ l : FSListing,
      ((toListE l).map (entryLines cfg p)).flatten = listingLines cfg p l
  | .lnil => rfl
  | .lcons e l => by
      simp [toListE, listingLines, listingLines_flatten cfg p l]

theorem phaseRem_dequeue (cfg : Config) (pd : Pending) :
    phaseRem cfg (.run pd.1 (pd.2.map listingList)) =
      (pendLines cfg pd : Multiset (List Nat)) := by
  rcases pd with ⟨p, _ | l⟩
  · rfl
  · show ((((listingList l).map (entryLines cfg p)).flatten :
        List (List Nat)) : Multiset (List Nat)) = _
    simp only [listingList, List.map_cons, List.flatten_cons]
    rw [show entryLines cfg p (.dir (wstr ".") .lnil) = [] by
          simp [entryLines, isDotName_dot],
        show entryLines cfg p (.dir (wstr "..") .lnil) = [] by
          simp [entryLines, isDotName_dotdot],
        listingLines_flatten]
    rfl

theorem procEntry_lines (cfg : Config) (d : WStr) (e : FSEntry) :
    (procEntry cfg d e).2 ++ ((procEntry cfg d e).1.map (pendLines cfg)).flatten
      = entryLines cfg d e := by
  cases e with
  | file n =>
      simp only [procEntry, entryLines]
      split
      · cases cfg.utf8 (childPath d n) <;> simp
      · simp
  | dirFail n =>
      simp only [procEntry, entryLines]
      split
      · simp
      · split
        all_goals simp [pendLines]
  | dir n l =>
      simp only [procEntry, entryLines]
      split
      · simp
      · split
        all_goals simp [pendLines]

theorem coe_flatten_map {α β : Type _} (f : α → List β) (xs : List α) :
    (((xs.map f).flatten : List β) : Multiset β) =
      (xs.map (fun x => ((f x : List β) : Multiset β))).sum := by
  induction xs with
  | nil => rfl
  | cons x xs ih => simp [← ih, Multiset.coe_add]

/-- The master invariant of the scan, relative to the seeded queue:
the active-work accounting, the drained-after-done facts, the buffer
accounting, and conservation of the canonical output. -/
structure Inv (cfg : Config) (seed : List Pending) (s : ScanState) : Prop where
  active_eq : s.active = (s.queue.length : Int) + (nRun s.ws : Int)
  done_q : s.isDone = true → s.queue = [] ∧ nRun s.ws = 0
  noexit : s.isDone = false → ∀ w ∈ s.ws, w.phase ≠ .exited
  exitedBuf : ∀ w ∈ s.ws, w.phase = .exited → w.buf = []
  count_eq : s.count = s.sink.length + (s.ws.map (fun w => w.buf.length)).sum
  lines_eq :
    (s.sink : Multiset (List Nat)) + (s.ws.map (wLines cfg)).sum +
        (s.queue.map (fun pd => (pendLines cfg pd : Multiset (List Nat)))).sum
      = (totalLines cfg seed : Multiset (List Nat))

theorem nRun_replicate (W : Nat) :
    nRun (List.replicate W (⟨.idle, []⟩ : Worker)) = 0 := by
  induction W with
  | zero => rfl
  | succ n ih => simp [List.replicate_succ, nRun, List.countP_cons]

theorem bufLen_replicate (W : Nat) :
    ((List.replicate W (⟨.idle, []⟩ : Worker)).map
      (fun w => w.buf.length)).sum = 0 := by
  induction W with
  | zero => rfl
  | succ n ih => simp [List.replicate_succ]

theorem wLines_replicate (cfg : Config) (W : Nat) :
    ((List.replicate W (⟨.idle, []⟩ : Worker)).map (wLines cfg)).sum = 0 := by
  induction W with
  | zero => rfl
  | succ n ih => simp [List.replicate_succ, wLines, phaseRem]

theorem phaseRem_cons (cfg : Config) (p : WStr) (e : FSEntry)
    (es : List FSEntry) :
    phaseRem cfg (.run p (some (e :: es))) =
      (entryLines cfg p e : Multiset (List Nat)) +
        phaseRem cfg (.run p (some es)) := by
  simp only [phaseRem, List.map_cons, List.flatten_cons]
  rw [Multiset.coe_add]

theorem procEntry_lines_ms (cfg : Config) (d : WStr) (e : FSEntry) :
    ((procEntry cfg d e).2 : Multiset (List Nat)) +
        ((procEntry cfg d e).1.map
          (fun pd => (pendLines cfg pd : Multiset (List Nat)))).sum
      = (entryLines cfg d e : Multiset (List Nat)) := by
  rw [← coe_flatten_map, Multiset.coe_add, procEntry_lines]

/-- Sum of a function over a worker list with a distinguished middle
element. -/
theorem map_sum_mid {M : Type _} [AddCommMonoid M] (f : Worker → M)
    (pre post : List Worker) (w : Worker) :
    ((pre ++ w :: post).map f).sum =
      f w + ((pre.map f).sum + (post.map f).sum) := by
  simp only [List.map_append, List.sum_append, List.map_cons, List.sum_cons]
  abel

/-- Decompose membership in a worker list after replacing the middle
element. -/
theorem mem_update {pre post : List Worker} {wOld wNew w : Worker}
    {ws : List Worker} (hw : ws = pre ++ wOld :: post)
    (hmem : w ∈ pre ++ wNew :: post) : w = wNew ∨ w ∈ ws := by
  subst hw
  rcases List.mem_append.1 hmem with hpre | hrest
  · exact Or.inr (List.mem_append.2 (Or.inl hpre))
  · rcases List.mem_cons.1 hrest with rfl | hpost
    · exact Or.inl rfl
    · exact Or.inr (List.mem_append.2 (Or.inr (List.mem_cons.2 (Or.inr hpost))))

theorem nRun_mid (pre post : List Worker) (w : Worker) :
    nRun (pre ++ w :: post) =
      nRun pre + nRun [w] + nRun post := by
  simp only [nRun, List.countP_append, List.countP_cons, List.countP_nil]
  omega

theorem inv_init (cfg : Config) (W : Nat) (seed : List Pending) :
    Inv cfg seed (initState W seed) := by
  refine ⟨?_, ?_, ?_, ?_, ?_, ?_⟩
  · simp [initState, nRun_replicate]
  · intro h; simp [initState] at h
  · intro _ w hw
    simp only [initState] at hw
    simp [List.eq_of_mem_replicate hw]
  · intro w hw
    simp only [initState] at hw
    simp [List.eq_of_mem_replicate hw]
  · simp [initState, bufLen_replicate]
  · simp [initState, totalLines, coe_flatten_map, wLines, phaseRem]

/-- Every transition preserves the master invariant. -/
theorem inv_step {cfg : Config} {seed : List Pending} {s s' : ScanState}
    (h : Step cfg s s') (hi : Inv cfg seed s) : Inv cfg seed s' := by
  obtain ⟨hact, hdq, hnx, hxb, hcnt, hlin⟩ := hi
  cases h with
  | dequeue pd rest pre post b hq hw =>
      refine ⟨?_, ?_, ?_, ?_, ?_, ?_⟩
      · rw [hq, hw] at hact
        rw [nRun_mid] at hact ⊢
        simp only [List.length_cons] at hact ⊢
        simp only [nRun, List.countP_cons, List.countP_nil] at hact ⊢
        simp at hact ⊢
        omega
      · intro hd
        have h1 := (hdq hd).1
        rw [hq] at h1
        simp at h1
      · intro hd w hwmem
        rcases mem_update hw hwmem with rfl | hold
        · simp
        · exact hnx hd w hold
      · intro w hwmem hph
        rcases mem_update hw hwmem with rfl | hold
        · simp at hph
        · exact hxb w hold hph
      · rw [hw] at hcnt
        rw [map_sum_mid] at hcnt ⊢
        exact hcnt
      · rw [hq, hw] at hlin
        rw [map_sum_mid] at hlin ⊢
        simp only [List.map_cons, List.sum_cons] at hlin
        rw [← hlin]
        simp only [wLines]
        rw [phaseRem_dequeue]
        simp only [phaseRem]
        abel
  | exitW pre post b hd hq hw =>
      refine ⟨?_, ?_, ?_, ?_, ?_, ?_⟩
      · rw [hw] at hact
        rw [nRun_mid] at hact ⊢
        simpa [nRun] using hact
      · intro _
        have h1 := hdq hd
        rw [hw, nRun_mid] at h1
        rw [nRun_mid]
        simpa [nRun] using h1
      · intro hcontra
        simp only [hd] at hcontra
        cases hcontra
      · intro w hwmem hph
        rcases mem_update hw hwmem with rfl | hold
        · rfl
        · exact hxb w hold hph
      · rw [hw] at hcnt
        rw [map_sum_mid] at hcnt ⊢
        simp only [List.length_append] at hcnt ⊢
        simp at hcnt ⊢
        omega
      · rw [hw] at hlin
        rw [map_sum_mid] at hlin ⊢
        rw [← hlin]
        simp only [wLines, phaseRem, ← Multiset.coe_add, Multiset.coe_nil]
        abel
  | failDir pre post p b hw =>
      refine ⟨?_, ?_, ?_, ?_, ?_, ?_⟩
      · rw [hw] at hact
        rw [nRun_mid] at hact ⊢
        simp only [nRun, List.countP_cons, List.countP_nil] at hact ⊢
        simp at hact ⊢
        omega
      · intro hd
        have h1 := hdq hd
        rw [hw, nRun_mid] at h1
        simp [nRun] at h1
      · intro hd w hwmem
        rcases mem_update hw hwmem with rfl | hold
        · simp
        · exact hnx hd w hold
      · intro w hwmem hph
        rcases mem_update hw hwmem with rfl | hold
        · simp at hph
        · exact hxb w hold hph
      · rw [hw] at hcnt
        rw [map_sum_mid] at hcnt ⊢
        exact hcnt
      · rw [hw] at hlin
        rw [map_sum_mid] at hlin ⊢
        rw [← hlin]
        simp only [wLines, phaseRem]
  | stepEntry pre post p e es b hw =>
      have hplM := procEntry_lines_ms cfg p e
      refine ⟨?_, ?_, ?_, ?_, ?_, ?_⟩
      · simp only [applyEntry]
        rw [hw] at hact
        rw [nRun_mid] at hact ⊢
        simp only [nRun, List.countP_cons, List.countP_nil,
          List.length_append] at hact ⊢
        simp at hact ⊢
        omega
      · intro hd
        have h1 := hdq hd
        rw [hw, nRun_mid] at h1
        simp [nRun] at h1
      · intro hd w hwmem
        simp only [applyEntry] at hwmem
        rcases mem_update hw hwmem with rfl | hold
        · simp
        · exact hnx hd w hold
      · intro w hwmem hph
        simp only [applyEntry] at hwmem
        rcases mem_update hw hwmem with rfl | hold
        · simp at hph
        · exact hxb w hold hph
      · simp only [applyEntry]
        rw [hw] at hcnt
        rw [map_sum_mid] at hcnt ⊢
        by_cases hfl : ((procEntry cfg p e).2 != [] &&
            decide (cfg.flushCount * 256 ≤ bufBytes (b ++ (procEntry cfg p e).2))) = true
        · simp only [hfl, if_true]
          simp at hcnt ⊢
          omega
        · simp only [if_neg hfl]
          simp at hcnt ⊢
          omega
      · simp only [applyEntry]
        rw [hw] at hlin
        rw [map_sum_mid] at hlin ⊢
        rw [← hlin]
        simp only [wLines, phaseRem_cons, List.map_append, List.sum_append]
        rw [← procEntry_lines_ms cfg p e]
        by_cases hfl : ((procEntry cfg p e).2 != [] &&
            decide (cfg.flushCount * 256 ≤ bufBytes (b ++ (procEntry cfg p e).2))) = true
        · simp only [hfl, if_true]
          try simp only [← Multiset.coe_add, Multiset.coe_nil]
          abel
        · simp only [if_neg hfl]
          try simp only [← Multiset.coe_add, Multiset.coe_nil]
          abel
  | finishDir pre post p b hw =>
      refine ⟨?_, ?_, ?_, ?_, ?_, ?_⟩
      · rw [hw] at hact
        rw [nRun_mid] at hact ⊢
        simp only [nRun, List.countP_cons, List.countP_nil] at hact ⊢
        simp at hact ⊢
        omega
      · intro hd
        have h1 := hdq hd
        rw [hw, nRun_mid] at h1
        simp [nRun] at h1
      · intro hd w hwmem
        rcases mem_update hw hwmem with rfl | hold
        · simp
        · exact hnx hd w hold
      · intro w hwmem hph
        rcases mem_update hw hwmem with rfl | hold
        · simp at hph
        · exact hxb w hold hph
      · rw [hw] at hcnt
        rw [map_sum_mid] at hcnt ⊢
        exact hcnt
      · rw [hw] at hlin
        rw [map_sum_mid] at hlin ⊢
        rw [← hlin]
        simp only [wLines, phaseRem, List.map_nil, List.flatten_nil]
        rfl
  | setDone hd ha hq =>
      refine ⟨hact, ?_, ?_, hxb, hcnt, hlin⟩
      · intro _
        refine ⟨hq, ?_⟩
        show nRun s.ws = 0
        rw [hq] at hact
        simp at hact
        omega
      · intro hcontra
        simp at hcontra

/-- The master invariant holds in every reachable state. -/
theorem inv_reach {cfg : Config} {W : Nat} {seed : List Pending}
    {s : ScanState} (h : Reach cfg W seed s) : Inv cfg seed s := by
  induction h with
  | refl => exact inv_init cfg W seed
  | tail _ hstep ih => exact inv_step hstep ih

/-- The number of workers never changes. -/
theorem reach_ws_length {cfg : Config} {W : Nat} {seed : List Pending}
    {s : ScanState} (h : Reach cfg W seed s) : s.ws.length = W := by
  induction h with
  | refl => simp [initState]
  | tail _ hstep ih =>
      cases hstep with
      | dequeue pd rest pre post b hq hw =>
          rw [hw] at ih; simpa using ih
      | exitW pre post b hd hq hw =>
          rw [hw] at ih; simpa using ih
      | failDir pre post p b hw =>
          rw [hw] at ih; simpa using ih
      | stepEntry pre post p e es b hw =>
          simp only [applyEntry]
          rw [hw] at ih; simpa using ih
      | finishDir pre post p b hw =>
          rw [hw] at ih; simpa using ih
      | setDone hd ha hq => exact ih

/-! ## Termination -/

theorem no_strictly_decreasing (g : ℕ → ℕ) (hg : ∀ n, g (n + 1) < g n) :
    False := by
  have h : ∀ n, g n + n ≤ g 0 := by
    intro n
    induction n with
    | zero => omega
    | succ k ih => have := hg k; omega
  have := h (g 0 + 1)
  omega

/-- There is no infinite execution of the scan: `scanMeasure` strictly
decreases along every transition. -/
theorem no_infinite_chain (cfg : Config) (f : ℕ → ScanState)
    (hf : ∀ n, Step cfg (f n) (f (n + 1))) : False :=
  no_strictly_decreasing (fun n => scanMeasure (f n))
    (fun n => step_measure_lt (hf n))

/-- In a terminal state no worker can be mid-enumeration: each of the three
run shapes (failed handle, exhausted listing, entry left) has an enabled
transition. -/
theorem terminal_no_run {cfg : Config} {s : ScanState} (ht : Terminal cfg s)
    {w : Worker} (hmem : w ∈ s.ws) (p : WStr) (o : Option (List FSEntry))
    (hrun : w.phase = Phase.run p o) : False := by
  obtain ⟨pre, post, hw⟩ := List.append_of_mem hmem
  obtain ⟨ph, bf⟩ := w
  have hph : ph = Phase.run p o := hrun
  subst hph
  cases o with
  | none => exact ht _ (Step.failDir s pre post p bf hw)
  | some es =>
      cases es with
      | nil => exact ht _ (Step.finishDir s pre post p bf hw)
      | cons e es => exact ht _ (Step.stepEntry s pre post p e es bf hw)

/-- In a reachable terminal state every worker has exited its loop: an idle
worker could dequeue (queue non-empty), exit (done set), or — when the
queue is empty, done unset and consequently the counter zero — enable the
coordinator's `setDone`. -/
theorem terminal_all_exited {cfg : Config} {seed : List Pending}
    {s : ScanState} (hi : Inv cfg seed s) (ht : Terminal cfg s) :
    ∀ w ∈ s.ws, w.phase = Phase.exited := by
  intro w hmem
  obtain ⟨pre, post, hw⟩ := List.append_of_mem hmem
  obtain ⟨ph, bf⟩ := w
  cases hph : ph with
  | exited => rfl
  | run p o => exact absurd (terminal_no_run ht hmem p o (by simp [hph])) id
  | idle =>
      exfalso
      subst hph
      cases hq : s.queue with
      | cons pd rest => exact ht _ (Step.dequeue s pd rest pre post bf hq hw)
      | nil =>
          cases hd : s.isDone with
          | true => exact ht _ (Step.exitW s pre post bf hd hq hw)
          | false =>
              have hnr : nRun s.ws = 0 := by
                apply List.countP_eq_zero.2
                intro w' hmem'
                cases hph' : w'.phase with
                | run p o => exact absurd (terminal_no_run ht hmem' p o hph') id
                | idle => simp [hph']
                | exited => simp [hph']
              have ha : s.active = 0 := by
                rw [hi.active_eq, hq, hnr]; simp
              exact ht _ (Step.setDone s hd ha hq)

/-- Shape of a reachable terminal state: the done flag is set, the queue
has been drained, the counter is zero, and every worker has exited. -/
theorem terminal_state_shape {cfg : Config} {seed : List Pending}
    {s : ScanState} (hi : Inv cfg seed s) (ht : Terminal cfg s)
    (hW : s.ws ≠ []) :
    s.isDone = true ∧ s.queue = [] ∧ s.active = 0 ∧
      ∀ w ∈ s.ws, w.phase = Phase.exited := by
  have hex := terminal_all_exited hi ht
  have hd : s.isDone = true := by
    by_contra hfd
    simp only [Bool.not_eq_true] at hfd
    obtain ⟨w, hmem⟩ : ∃ w, w ∈ s.ws := by
      cases hws : s.ws with
      | nil => exact absurd hws hW
      | cons a l => exact ⟨a, by simp [hws]⟩
    exact hi.noexit hfd w hmem (hex w hmem)
  obtain ⟨hq, hnr⟩ := hi.done_q hd
  refine ⟨hd, hq, ?_, hex⟩
  rw [hi.active_eq, hq, hnr]; simp

/-- In a complete run (reachable terminal state with at least one worker),
the sink holds exactly the canonical output of the seeded queue — as a
multiset, i.e. regardless of the schedule — and the matched-file counter
equals the number of lines in the sink. -/
theorem terminal_sink {cfg : Config} {W : Nat} {seed : List Pending}
    {s : ScanState} (hr : Reach cfg W seed s) (ht : Terminal cfg s)
    (hW : 0 < W) :
    (s.sink : Multiset (List Nat)) = (totalLines cfg seed : Multiset (List Nat))
      ∧ s.count = s.sink.length := by
  have hi := inv_reach hr
  have hlen := reach_ws_length hr
  have hne : s.ws ≠ [] := by
    intro h; rw [h] at hlen; simp at hlen; omega
  obtain ⟨hd, hq, _, hex⟩ := terminal_state_shape hi ht hne
  have hws0 : ∀ w ∈ s.ws, wLines cfg w = 0 ∧ w.buf = [] := by
    intro w hmem
    have hphase := hex w hmem
    have hbuf := hi.exitedBuf w hmem hphase
    exact ⟨by simp [wLines, hbuf, hphase, phaseRem], hbuf⟩
  have hsum0 : (s.ws.map (wLines cfg)).sum = 0 := by
    apply List.sum_eq_zero
    intro x hx
    obtain ⟨w, hmem, rfl⟩ := List.mem_map.1 hx
    exact (hws0 w hmem).1
  have hbsum0 : (s.ws.map (fun w => w.buf.length)).sum = 0 := by
    apply List.sum_eq_zero
    intro x hx
    obtain ⟨w, hmem, rfl⟩ := List.mem_map.1 hx
    simp [(hws0 w hmem).2]
  constructor
  · have hle := hi.lines_eq
    rw [hq, hsum0] at hle
    simpa using hle
  · have hce := hi.count_eq
    rw [hbsum0] at hce
    simpa using hce

/-! ## Well-formed filesystems and uniqueness of the output lines

A real directory never contains two entries with the same name, entry names
are non-empty, are not the `.`/`..` self-references, and contain no path
separator.  Under these facts — and injectivity of the UTF-8 conversion on
the paths it accepts — every line of the canonical output occurs once. -/

/-- Whether a wide string contains the path separator `'\\'` (92). -/
def hasBS : WStr → Bool
  | [] => false
  | c :: cs => c == 92 || hasBS cs

/-- Boolean membership among names. -/
def memW (x : WStr) : List WStr → Bool
  | [] => false
  | y :: ys => x == y || memW x ys

/-- Boolean pairwise distinctness of a name list. -/
def nodupW : List WStr → Bool
  | [] => true
  | y :: ys => !(memW y ys) && nodupW ys

/-- A legal Win32 entry name: non-empty, not a self-reference, and free of
the path separator. -/
def goodNameB (n : WStr) : Bool := n != [] && !isDotName n && !hasBS n

/-- The names of the real children of a directory. -/
def namesOf (l : FSListing) : List WStr := (toListE l).map entryName

mutual
/-- Well-formedness of one entry (recursively, for directories). -/
def entryWFb : FSEntry → Bool
  | .file n => goodNameB n
  | .dirFail n => goodNameB n
  | .dir n l => goodNameB n && nodupW (namesOf l) && allWFb l
/-- Well-formedness of all entries of a listing. -/
def allWFb : FSListing → Bool
  | .lnil => true
  | .lcons e l => entryWFb e && allWFb l
end

/-- Well-formedness of a directory listing: distinct names, each entry
well-formed. -/
def listingWFb (l : FSListing) : Bool := nodupW (namesOf l) && allWFb l

mutual
/-- The full paths of the files kept by the filters under one entry
(the paths whose lines appear in the output, before UTF-8 conversion). -/
def entryPaths (cfg : Config) (d : WStr) : FSEntry → List WStr
  | .file n =>
      if extFilter cfg.fileTypes (childPath d n) then [childPath d n] else []
  | .dirFail _ => []
  | .dir n l =>
      if isDotName n then []
      else
        if deepFilter cfg.pfx (childPath d n) then
          listingPaths cfg (childPath d n) l
        else []
/-- The kept file paths under all entries of a listing. -/
def listingPaths (cfg : Config) (d : WStr) : FSListing → List WStr
  | .lnil => []
  | .lcons e l => entryPaths cfg d e ++ listingPaths cfg d l
end

/-- The kept file paths under a pending directory. -/
def pendPaths (cfg : Config) : Pending → List WStr
  | (_, none) => []
  | (p, some l) => listingPaths cfg p l

mutual
theorem entryLines_filterMap (cfg : Config) (d : WStr) :
    ∀ e : FSEntry,
      entryLines cfg d e = (entryPaths cfg d e).filterMap cfg.utf8
  | .file n => by
      simp only [entryLines, entryPaths]
      split
      · cases h : cfg.utf8 (childPath d n) with
        | none => simp [List.filterMap_cons, h]
        | some bs => simp [List.filterMap_cons, h]
      · simp
  | .dirFail n => by simp [entryLines, entryPaths]
  | .dir n l => by
      simp only [entryLines, entryPaths]
      split
      · simp
      · split
        · exact listingLines_filterMap cfg (childPath d n) l
        · simp
theorem listingLines_filterMap (cfg : Config) (d : WStr) :
    ∀ l : FSListing,
      listingLines cfg d l = (listingPaths cfg d l).filterMap cfg.utf8
  | .lnil => rfl
  | .lcons e l => by
      simp [listingLines, listingPaths, List.filterMap_append,
        entryLines_filterMap cfg d e, listingLines_filterMap cfg d l]
end

theorem memW_iff (x : WStr) : ∀ l : List WStr, memW x l = true ↔ x ∈ l := by
  intro l
  induction l with
  | nil => simp [memW]
  | cons y ys ih =>
      simp only [memW, Bool.or_eq_true, beq_iff_eq, ih, List.mem_cons]

theorem hasBS_iff : ∀ n : WStr, hasBS n = true ↔ 92 ∈ n := by
  intro n
  induction n with
  | nil => simp [hasBS]
  | cons c cs ih =>
      simp only [hasBS, Bool.or_eq_true, beq_iff_eq, ih, List.mem_cons]
      constructor
      · rintro (h | h)
        · exact Or.inl h.symm
        · exact Or.inr h
      · rintro (h | h)
        · exact Or.inl h.symm
        · exact Or.inr h

/-- Splitting off the first path component is unambiguous: if two
separator-free names followed by either nothing or a separated remainder
concatenate to the same string, the names agree. -/
theorem name_ext_inj : ∀ {n1 n2 r1 r2 : WStr},
    hasBS n1 = false → hasBS n2 = false →
    (r1 = [] ∨ ∃ t, r1 = 92 :: t) → (r2 = [] ∨ ∃ t, r2 = 92 :: t) →
    n1 ++ r1 = n2 ++ r2 → n1 = n2 := by
  intro n1
  induction n1 with
  | nil =>
      intro n2 r1 r2 h1 h2 hr1 hr2 heq
      cases n2 with
      | nil => rfl
      | cons b bs =>
          exfalso
          rcases hr1 with rfl | ⟨t, rfl⟩
          · simp at heq
          · simp only [List.nil_append, List.cons_append] at heq
            obtain ⟨hb, -⟩ := List.cons.inj heq
            rw [← hb] at h2
            simp [hasBS] at h2
  | cons a as ih =>
      intro n2 r1 r2 h1 h2 hr1 hr2 heq
      cases n2 with
      | nil =>
          exfalso
          rcases hr2 with rfl | ⟨t, rfl⟩
          · simp at heq
          · simp only [List.nil_append, List.cons_append] at heq
            obtain ⟨hb, -⟩ := List.cons.inj heq
            rw [hb] at h1
            simp [hasBS] at h1
      | cons b bs =>
          simp only [List.cons_append] at heq
          obtain ⟨hb, hrest⟩ := List.cons.inj heq
          simp only [hasBS, Bool.or_eq_false_iff] at h1 h2
          rw [hb, ih h1.2 h2.2 hr1 hr2 hrest]

/-- Two kept paths under entries with different (legal) names differ. -/
theorem childPath_ext_inj {d n1 n2 r1 r2 : WStr}
    (h1 : hasBS n1 = false) (h2 : hasBS n2 = false)
    (hr1 : r1 = [] ∨ ∃ t, r1 = 92 :: t) (hr2 : r2 = [] ∨ ∃ t, r2 = 92 :: t)
    (heq : childPath d n1 ++ r1 = childPath d n2 ++ r2) : n1 = n2 := by
  simp only [childPath, List.append_assoc, List.cons_append] at heq
  have h := List.append_cancel_left heq
  obtain ⟨-, h2'⟩ := List.cons.inj h
  exact name_ext_inj h1 h2 hr1 hr2 h2'

mutual
theorem entryPaths_shape (cfg : Config) :
    ∀ (e : FSEntry) (d q : WStr), q ∈ entryPaths cfg d e →
      ∃ r, q = childPath d (entryName e) ++ r ∧ (r = [] ∨ ∃ t, r = 92 :: t)
  | .file n => by
      intro d q hq
      simp only [entryPaths] at hq
      split at hq
      · simp only [List.mem_singleton] at hq
        exact ⟨[], by simp [hq, entryName], Or.inl rfl⟩
      · simp at hq
  | .dirFail n => by
      intro d q hq
      simp [entryPaths] at hq
  | .dir n l => by
      intro d q hq
      simp only [entryPaths] at hq
      split at hq
      · simp at hq
      · split at hq
        · obtain ⟨e', r', hmem, hshape, -⟩ :=
            listingPaths_shape cfg l (childPath d n) q hq
          refine ⟨92 :: (entryName e' ++ r'), ?_, Or.inr ⟨_, rfl⟩⟩
          rw [hshape]
          simp [childPath, entryName, List.append_assoc]
        · simp at hq
theorem listingPaths_shape (cfg : Config) :
    ∀ (l : FSListing) (d q : WStr), q ∈ listingPaths cfg d l →
      ∃ e r, e ∈ toListE l ∧ q = childPath d (entryName e) ++ r ∧
        (r = [] ∨ ∃ t, r = 92 :: t)
  | .lnil => by
      intro d q hq
      simp [listingPaths] at hq
  | .lcons e l => by
      intro d q hq
      simp only [listingPaths, List.mem_append] at hq
      rcases hq with hq | hq
      · obtain ⟨r, hr, hcase⟩ := entryPaths_shape cfg e d q hq
        exact ⟨e, r, by simp [toListE], hr, hcase⟩
      · obtain ⟨e', r, hmem, hr, hcase⟩ := listingPaths_shape cfg l d q hq
        exact ⟨e', r, by simp [toListE, hmem], hr, hcase⟩
end

theorem allWFb_mem :
    ∀ (l : FSListing), allWFb l = true → ∀ e ∈ toListE l, entryWFb e = true
  | .lnil => by
      intro _ e he
      simp [toListE] at he
  | .lcons e0 l => by
      intro hwf e he
      simp only [allWFb, Bool.and_eq_true] at hwf
      simp only [toListE, List.mem_cons] at he
      rcases he with rfl | he
      · exact hwf.1
      · exact allWFb_mem l hwf.2 e he

theorem entryWFb_goodName :
    ∀ e : FSEntry, entryWFb e = true → goodNameB (entryName e) = true
  | .file n => by intro h; exact h
  | .dirFail n => by intro h; exact h
  | .dir n l => by
      intro h
      simp only [entryWFb, Bool.and_eq_true] at h
      exact h.1.1

theorem goodName_hasBS {n : WStr} (h : goodNameB n = true) :
    hasBS n = false := by
  simp only [goodNameB, Bool.and_eq_true, Bool.not_eq_true'] at h
  exact h.2

mutual
theorem entryPaths_nodup (cfg : Config) :
    ∀ (e : FSEntry) (d : WStr), entryWFb e = true → (entryPaths cfg d e).Nodup
  | .file n => by
      intro d _
      simp only [entryPaths]
      split
      · exact List.nodup_singleton _
      · exact List.nodup_nil
  | .dirFail n => by
      intro d _
      simp [entryPaths]
  | .dir n l => by
      intro d hwf
      simp only [entryPaths]
      split
      · exact List.nodup_nil
      · split
        · simp only [entryWFb, Bool.and_eq_true] at hwf
          exact listingPaths_nodup cfg l (childPath d n) hwf.1.2 hwf.2
        · exact List.nodup_nil
theorem listingPaths_nodup (cfg : Config) :
    ∀ (l : FSListing) (d : WStr), nodupW (namesOf l) = true →
      allWFb l = true → (listingPaths cfg d l).Nodup
  | .lnil => by
      intro d _ _
      simp [listingPaths]
  | .lcons e l => by
      intro d hnd hwf
      simp only [listingPaths]
      simp only [allWFb, Bool.and_eq_true] at hwf
      have hnames : namesOf (.lcons e l) = entryName e :: namesOf l := rfl
      rw [hnames] at hnd
      simp only [nodupW, Bool.and_eq_true, Bool.not_eq_true'] at hnd
      refine List.Nodup.append (entryPaths_nodup cfg e d hwf.1)
        (listingPaths_nodup cfg l d hnd.2 hwf.2) ?_
      intro q hq1 hq2
      obtain ⟨r1, hshape1, hr1⟩ := entryPaths_shape cfg e d q hq1
      obtain ⟨e', r2, hmem', hshape2, hr2⟩ := listingPaths_shape cfg l d q hq2
      have hg1 := goodName_hasBS (entryWFb_goodName e hwf.1)
      have hg2 := goodName_hasBS
        (entryWFb_goodName e' (allWFb_mem l hwf.2 e' hmem'))
      have hnn : entryName e = entryName e' :=
        childPath_ext_inj hg1 hg2 hr1 hr2 (hshape1.symm.trans hshape2)
      have hin : entryName e ∈ namesOf l := by
        rw [hnn]
        exact List.mem_map_of_mem entryName hmem'
      rw [← memW_iff, hnd.1] at hin
      simp at hin
end

theorem seedEntry_paths_shape (cfg : Config) (root : WStr) (e : FSEntry)
    (q : WStr)
    (hq : q ∈ ((seedEntry cfg root e).map (pendPaths cfg)).flatten) :
    ∃ r, q = childPath root (entryName e) ++ r ∧ (r = [] ∨ ∃ t, r = 92 :: t) := by
  cases e with
  | file n => simp [seedEntry] at hq
  | dirFail n =>
      simp only [seedEntry] at hq
      split at hq
      · simp at hq
      · split at hq
        · simp [pendPaths] at hq
        · simp at hq
  | dir n l =>
      simp only [seedEntry] at hq
      split at hq
      · simp at hq
      · split at hq
        · simp only [List.map_cons, List.map_nil, List.flatten_cons,
            List.flatten_nil, List.append_nil, pendPaths] at hq
          obtain ⟨e', r', hmem, hshape, -⟩ :=
            listingPaths_shape cfg l (childPath root n) q hq
          refine ⟨92 :: (entryName e' ++ r'), ?_, Or.inr ⟨_, rfl⟩⟩
          rw [hshape]
          simp [childPath, entryName, List.append_assoc]
        · simp at hq

theorem seedEntry_paths_nodup (cfg : Config) (root : WStr) (e : FSEntry)
    (hwf : entryWFb e = true) :
    (((seedEntry cfg root e).map (pendPaths cfg)).flatten).Nodup := by
  cases e with
  | file n => simp [seedEntry]
  | dirFail n =>
      simp only [seedEntry]
      split
      · simp
      · split
        · simp [pendPaths]
        · simp
  | dir n l =>
      simp only [seedEntry]
      split
      · simp
      · split
        · simp only [List.map_cons, List.map_nil, List.flatten_cons,
            List.flatten_nil, List.append_nil, pendPaths]
          simp only [entryWFb, Bool.and_eq_true] at hwf
          exact listingPaths_nodup cfg l (childPath root n) hwf.1.2 hwf.2
        · simp

theorem seedList_mem_shape (cfg : Config) (root : WStr) :
    ∀ (es : List FSEntry) (q : WStr),
      q ∈ (((es.map (seedEntry cfg root)).flatten).map (pendPaths cfg)).flatten →
      ∃ e, e ∈ es ∧ ∃ r, q = childPath root (entryName e) ++ r ∧
        (r = [] ∨ ∃ t, r = 92 :: t) := by
  intro es
  induction es with
  | nil => intro q hq; simp at hq
  | cons e es ih =>
      intro q hq
      simp only [List.map_cons, List.flatten_cons, List.map_append,
        List.flatten_append, List.mem_append] at hq
      rcases hq with hq | hq
      · obtain ⟨r, hr, hcase⟩ := seedEntry_paths_shape cfg root e q hq
        exact ⟨e, List.mem_cons_self e es, r, hr, hcase⟩
      · obtain ⟨e', hmem, r, hr, hcase⟩ := ih q hq
        exact ⟨e', List.mem_cons_of_mem e hmem, r, hr, hcase⟩

theorem seedList_nodup (cfg : Config) (root : WStr) :
    ∀ (es : List FSEntry), nodupW (es.map entryName) = true →
      (∀ e ∈ es, entryWFb e = true) →
      ((((es.map (seedEntry cfg root)).flatten).map (pendPaths cfg)).flatten).Nodup := by
  intro es
  induction es with
  | nil => intro _ _; simp
  | cons e es ih =>
      intro hnd hwf
      simp only [List.map_cons, Bool.and_eq_true, nodupW,
        Bool.not_eq_true'] at hnd
      simp only [List.map_cons, List.flatten_cons, List.map_append,
        List.flatten_append]
      refine List.Nodup.append
        (seedEntry_paths_nodup cfg root e (hwf e (List.mem_cons_self e es)))
        (ih hnd.2 (fun e' he' => hwf e' (List.mem_cons_of_mem e he'))) ?_
      intro q hq1 hq2
      obtain ⟨r1, hshape1, hr1⟩ := seedEntry_paths_shape cfg root e q hq1
      obtain ⟨e', hmem', r2, hshape2, hr2⟩ := seedList_mem_shape cfg root es q hq2
      have hg1 := goodName_hasBS
        (entryWFb_goodName e (hwf e (List.mem_cons_self e es)))
      have hg2 := goodName_hasBS
        (entryWFb_goodName e' (hwf e' (List.mem_cons_of_mem e hmem')))
      have hnn : entryName e = entryName e' :=
        childPath_ext_inj hg1 hg2 hr1 hr2 (hshape1.symm.trans hshape2)
      have hin : entryName e ∈ es.map entryName := by
        rw [hnn]
        exact List.mem_map_of_mem entryName hmem'
      rw [← memW_iff, hnd.1] at hin
      simp at hin

theorem initialize_paths_nodup (cfg : Config) (root : WStr)
    (rootL : FSListing) (hwf : listingWFb rootL = true) :
    (((initialize_directory_queue cfg root rootL).map
      (pendPaths cfg)).flatten).Nodup := by
  have hskip : initialize_directory_queue cfg root rootL
      = ((toListE rootL).map (seedEntry cfg root)).flatten := by
    simp [initialize_directory_queue, listingList, seedEntry,
      isDotName_dot, isDotName_dotdot]
  rw [hskip]
  simp only [listingWFb, Bool.and_eq_true] at hwf
  exact seedList_nodup cfg root (toListE rootL) hwf.1
    (allWFb_mem rootL hwf.2)

theorem pendLines_filterMap (cfg : Config) (pd : Pending) :
    pendLines cfg pd = (pendPaths cfg pd).filterMap cfg.utf8 := by
  rcases pd with ⟨p, _ | l⟩
  · rfl
  · exact listingLines_filterMap cfg p l

theorem totalLines_filterMap (cfg : Config) (seed : List Pending) :
    totalLines cfg seed =
      ((seed.map (pendPaths cfg)).flatten).filterMap cfg.utf8 := by
  induction seed with
  | nil => rfl
  | cons pd seed ih =>
      simp only [totalLines, List.map_cons, List.flatten_cons,
        List.filterMap_append] at ih ⊢
      rw [ih, pendLines_filterMap]

/-- Under a well-formed root listing and a conversion that never maps two
paths to the same byte string, the canonical output of the seeded scan has
no duplicate line. -/
theorem totalLines_nodup (cfg : Config) (root : WStr) (rootL : FSListing)
    (hwf : listingWFb rootL = true)
    (hinj : ∀ a b c, cfg.utf8 a = some c → cfg.utf8 b = some c → a = b) :
    (totalLines cfg (initialize_directory_queue cfg root rootL)).Nodup := by
  rw [totalLines_filterMap]
  refine List.Nodup.filterMap ?_ (initialize_paths_nodup cfg root rootL hwf)
  intro a a' b hb hb'
  exact hinj a a' b hb hb'

/-! ## A deterministic executor

`step1` performs the unique enabled action of a single-worker pool (plus
the coordinator); it is used to construct concrete complete runs whose
states can be evaluated. -/

def step1 (cfg : Config) (s : ScanState) : Option ScanState :=
  match s.ws with
  | [⟨.run _p none, b⟩] =>
      some { s with active := s.active - 1, ws := [⟨.idle, b⟩] }
  | [⟨.run _p (some []), b⟩] =>
      some { s with active := s.active - 1, ws := [⟨.idle, b⟩] }
  | [⟨.run p (some (e :: es)), b⟩] =>
      some (applyEntry cfg s [] [] p e es b)
  | [⟨.idle, b⟩] =>
      match s.queue with
      | pd :: rest =>
          some { s with queue := rest
                        ws := [⟨.run pd.1 (pd.2.map listingList), b⟩] }
      | [] =>
          match s.isDone with
          | true => some { s with ws := [⟨.exited, []⟩], sink := s.sink ++ b }
          | false =>
              if s.active == 0 then some { s with isDone := true } else none
  | _ => none

theorem step1_sound (cfg : Config) (s s' : ScanState)
    (h : step1 cfg s = some s') : Step cfg s s' := by
  unfold step1 at h
  split at h
  · rename_i p b hws
    injection h with h2
    subst h2
    exact Step.failDir s [] [] p b hws
  · rename_i p b hws
    injection h with h2
    subst h2
    exact Step.finishDir s [] [] p b hws
  · rename_i p e es b hws
    injection h with h2
    subst h2
    exact Step.stepEntry s [] [] p e es b hws
  · rename_i b hws
    split at h
    · rename_i pd rest hq
      injection h with h2
      subst h2
      exact Step.dequeue s pd rest [] [] b hq hws
    · rename_i hq
      split at h
      · rename_i hd
        injection h with h2
        subst h2
        exact Step.exitW s [] [] b hd hq hws
      · rename_i hd
        split at h
        · rename_i ha
          injection h with h2
          subst h2
          exact Step.setDone s hd (beq_iff_eq.1 ha) hq
        · cases h
  · cases h

/-- Iterate `step1`. -/
def runSteps (cfg : Config) : Nat → ScanState → ScanState
  | 0, s => s
  | n + 1, s =>
      match step1 cfg s with
      | some s' => runSteps cfg n s'
      | none => s

theorem runSteps_reach (cfg : Config) (W : Nat) (seed : List Pending) :
    ∀ (n : Nat) (s : ScanState), Reach cfg W seed s →
      Reach cfg W seed (runSteps cfg n s)
  | 0, _, hr => hr
  | n + 1, s, hr => by
      unfold runSteps
      split
      case _ s' heq =>
          exact runSteps_reach cfg W seed n s' (hr.tail (step1_sound cfg s s' heq))
      case _ => exact hr

theorem singleton_mid {α : Type _} {pre post : List α} {w x : α}
    (h : pre ++ w :: post = [x]) : w = x := by
  cases pre with
  | nil => exact (List.cons.inj h).1
  | cons a as =>
      exfalso
      have hlen := congrArg List.length h
      simp at hlen

/-- A state whose single worker has exited, with the done flag set and the
queue drained, is terminal. -/
theorem terminal_of {cfg : Config} {s : ScanState}
    (hws : s.ws = [⟨Phase.exited, []⟩]) (hd : s.isDone = true)
    (hq : s.queue = []) : Terminal cfg s := by
  intro s' hstep
  cases hstep with
  | dequeue pd rest pre post b hq' hw =>
      rw [hq] at hq'; simp at hq'
  | exitW pre post b hd' hq' hw =>
      rw [hws] at hw
      have := singleton_mid hw.symm
      simp at this
  | failDir pre post p b hw =>
      rw [hws] at hw
      have := singleton_mid hw.symm
      simp at this
  | stepEntry pre post p e es b hw =>
      rw [hws] at hw
      have := singleton_mid hw.symm
      simp at this
  | finishDir pre post p b hw =>
      rw [hws] at hw
      have := singleton_mid hw.symm
      simp at this
  | setDone hd' ha hq' =>
      rw [hd] at hd'; cases hd'

/-! ## Concrete complete runs

Small filesystems on which the scan is executed to completion with one
worker; they instantiate the general theorems and exhibit the behaviours
the specification gets wrong.  `fun p => some p` stands for a UTF-8
conversion that succeeds on every path and is injective (every example
path is plain ASCII). -/

/-- Example root listing: `R` contains `A/`, and `A` contains `a.txt`. -/
def exRootL : FSListing :=
  .lcons (.dir (wstr "A") (.lcons (.file (wstr "a.txt")) .lnil)) .lnil

def exCfg : Config := ⟨[], [wstr "txt"], 5000, fun p => some p⟩

def exSeed : List Pending := initialize_directory_queue exCfg (wstr "R") exRootL

def exFinal : ScanState := runSteps exCfg 10 (initState 1 exSeed)

theorem exReach : Reach exCfg 1 exSeed exFinal :=
  runSteps_reach exCfg 1 exSeed 10 (initState 1 exSeed) .refl

theorem exTerminal : Terminal exCfg exFinal :=
  terminal_of (by decide) (by decide) (by decide)

/-- Example with a failing directory: `R` contains `A/` whose enumeration
fails (`INVALID_HANDLE_VALUE`). -/
def c9RootL : FSListing := .lcons (.dirFail (wstr "A")) .lnil

def c9Cfg : Config := ⟨[], [], 5000, fun p => some p⟩

def c9Seed : List Pending := initialize_directory_queue c9Cfg (wstr "R") c9RootL

/-- The state right after the single worker dequeued the failing
directory: it is mid-"enumeration" with an invalid handle. -/
def c9Mid : ScanState := runSteps c9Cfg 1 (initState 1 c9Seed)

def c9Final : ScanState := runSteps c9Cfg 10 (initState 1 c9Seed)

theorem c9Reach : Reach c9Cfg 1 c9Seed c9Final :=
  runSteps_reach c9Cfg 1 c9Seed 10 (initState 1 c9Seed) .refl

theorem c9Terminal : Terminal c9Cfg c9Final :=
  terminal_of (by decide) (by decide) (by decide)

theorem totalLines_all_fail (cfg : Config) :
    ∀ seed : List Pending, (∀ pd ∈ seed, pd.2 = none) →
      totalLines cfg seed = []
  | [], _ => rfl
  | pd :: seed, h => by
      have h1 := h pd (List.mem_cons_self pd seed)
      simp only [totalLines, List.map_cons, List.flatten_cons]
      rcases pd with ⟨p, o⟩
      simp only at h1
      subst h1
      simp only [pendLines, List.nil_append]
      simpa [totalLines] using
        totalLines_all_fail cfg seed (fun pd hm => h pd (List.mem_cons_of_mem _ hm))

/-! ## The claims -/

/-- **C2.** At every reachable state of the scan, the Active-Work Counter
(`active_dir_count`) equals the number of pending directories in the queue
plus the number of workers currently enumerating a dequeued directory —
each such directory is counted exactly once.  Consequently the counter can
never be 0 while a worker is mid-enumeration: the enqueue of a subdirectory
increments the counter in the same `q_m`-critical section that makes it
visible (`Step.stepEntry`), and a directory's decrement happens only in
`Step.finishDir`/`Step.failDir`, after its enumeration ends. -/
theorem C2_active_work_counter_invariant (cfg : Config) (W : Nat)
    (seed : List Pending) (s : ScanState) (hr : Reach cfg W seed s) :
    s.active = (s.queue.length : Int) + (nRun s.ws : Int) ∧
      (0 < nRun s.ws → 1 ≤ s.active) := by
  have hi := inv_reach hr
  refine ⟨hi.active_eq, ?_⟩
  intro h
  rw [hi.active_eq]
  omega

theorem C2_witness :
    exFinal.active = (exFinal.queue.length : Int) + (nRun exFinal.ws : Int) ∧
      (0 < nRun exFinal.ws → 1 ≤ exFinal.active) :=
  C2_active_work_counter_invariant exCfg 1 exSeed exFinal exReach

/-- **C3.** The scan terminates: there is no infinite execution from the
post-seeding state (the measure `scanMeasure` decreases along every
transition), and in every reachable state where nothing can move (with at
least one worker) the done flag has been set, the queue is empty, the
counter is 0, and every worker has exited its loop — in particular no
schedule, including the one where a single worker discovers all
subdirectories, can block forever. -/
theorem C3_scan_terminates (cfg : Config) (W : Nat) (seed : List Pending) :
    (¬ ∃ f : ℕ → ScanState, f 0 = initState W seed ∧
        ∀ n, Step cfg (f n) (f (n + 1))) ∧
      (∀ s, Reach cfg W seed s → 0 < W → Terminal cfg s →
        s.isDone = true ∧ s.queue = [] ∧ s.active = 0 ∧
          ∀ w ∈ s.ws, w.phase = Phase.exited) := by
  constructor
  · rintro ⟨f, -, hf⟩
    exact no_infinite_chain cfg f hf
  · intro s hr hW ht
    have hlen := reach_ws_length hr
    have hne : s.ws ≠ [] := by
      intro hcon; rw [hcon] at hlen; simp at hlen; omega
    exact terminal_state_shape (inv_reach hr) ht hne

theorem C3_witness :
    exFinal.isDone = true ∧ exFinal.queue = [] ∧ exFinal.active = 0 ∧
      ∀ w ∈ exFinal.ws, w.phase = Phase.exited :=
  (C3_scan_terminates exCfg 1 exSeed).2 exFinal exReach (by decide) exTerminal

/-- **C4.** In every reachable state the matched-file counter
(`file_count`) equals the number of lines in the sink plus the lines still
held in worker-private buffers (a line is appended to a buffer in the very
transition that increments the counter, and only there — a path whose
UTF-8 conversion fails contributes neither); when the run completes, every
buffer has been flushed, so the number of lines written to the sink
(excluding the header, which `main` writes before any worker starts)
equals the final counter value. -/
theorem C4_output_lines_eq_counter (cfg : Config) (W : Nat)
    (seed : List Pending) (s : ScanState) (hr : Reach cfg W seed s) :
    s.count = s.sink.length + ((s.ws.map (fun w => w.buf.length)).sum) ∧
      (Terminal cfg s → 0 < W → s.count = s.sink.length) := by
  refine ⟨(inv_reach hr).count_eq, ?_⟩
  intro ht hW
  exact (terminal_sink hr ht hW).2

theorem C4_witness :
    exFinal.count = exFinal.sink.length +
        ((exFinal.ws.map (fun w => w.buf.length)).sum) ∧
      (Terminal exCfg exFinal → 0 < 1 → exFinal.count = exFinal.sink.length) :=
  C4_output_lines_eq_counter exCfg 1 exSeed exFinal exReach

/-- **C10.** A worker exits its loop only when the done flag is set *and*
the queue is empty: in any reachable state in which some worker has
exited, the done flag is set, the queue has been fully drained (every
directory ever enqueued was dequeued), the Active-Work Counter is 0 and no
worker is still enumerating (every dequeued directory was fully processed
or its failure handled). -/
theorem C10_worker_exit_requires_drained_queue (cfg : Config) (W : Nat)
    (seed : List Pending) (s : ScanState) (hr : Reach cfg W seed s)
    (hex : ∃ w ∈ s.ws, w.phase = Phase.exited) :
    s.isDone = true ∧ s.queue = [] ∧ s.active = 0 ∧ nRun s.ws = 0 := by
  have hi := inv_reach hr
  obtain ⟨w, hmem, hph⟩ := hex
  have hd : s.isDone = true := by
    by_contra hfd
    simp only [Bool.not_eq_true] at hfd
    exact hi.noexit hfd w hmem hph
  obtain ⟨hq, hnr⟩ := hi.done_q hd
  refine ⟨hd, hq, ?_, hnr⟩
  rw [hi.active_eq, hq, hnr]; simp

theorem C10_witness :
    exFinal.isDone = true ∧ exFinal.queue = [] ∧ exFinal.active = 0 ∧
      nRun exFinal.ws = 0 :=
  C10_worker_exit_requires_drained_queue exCfg 1 exSeed exFinal exReach
    ⟨⟨Phase.exited, []⟩, by decide, rfl⟩

/-- **C9.** A pending directory whose enumeration fails
(`FindFirstFileExW` returned `INVALID_HANDLE_VALUE`) is handled by
decrementing the Active-Work Counter exactly once and returning the worker
to its dequeue loop — same buffer, nothing else changed, and the worker
has *not* exited; moreover a scan all of whose seeded directories fail in
this way still runs to completion: every worker exits and the run ends
with an empty (but valid) result set and a zero counter. -/
theorem C9_failed_enumeration_recoverable (cfg : Config) (s : ScanState)
    (pre post : List Worker) (p : WStr) (b : List (List Nat))
    (hw : s.ws = pre ++ ⟨Phase.run p none, b⟩ :: post) :
    (Step cfg s { s with
        active := s.active - 1
        ws := pre ++ ⟨Phase.idle, b⟩ :: post }) ∧
      (∀ (W : Nat) (seed : List Pending) (t : ScanState),
        (∀ pd ∈ seed, pd.2 = none) → Reach cfg W seed t → 0 < W →
        Terminal cfg t →
        (∀ w ∈ t.ws, w.phase = Phase.exited) ∧
          (t.sink : Multiset (List Nat)) = 0 ∧ t.count = 0) := by
  constructor
  · exact Step.failDir s pre post p b hw
  · intro W seed t hfail hr hW ht
    have hts := terminal_sink hr ht hW
    have h0 : totalLines cfg seed = [] := totalLines_all_fail cfg seed hfail
    have hsink : (t.sink : Multiset (List Nat)) = 0 := by
      rw [hts.1, h0]; rfl
    have hnil : t.sink = [] := (Multiset.coe_eq_zero _).1 hsink
    refine ⟨?_, hsink, ?_⟩
    · have hlen := reach_ws_length hr
      have hne : t.ws ≠ [] := by
        intro hcon; rw [hcon] at hlen; simp at hlen; omega
      exact (terminal_state_shape (inv_reach hr) ht hne).2.2.2
    · rw [hts.2, hnil]; rfl

theorem C9_witness :
    (Step c9Cfg c9Mid { c9Mid with
        active := c9Mid.active - 1
        ws := [] ++ ⟨Phase.idle, []⟩ :: [] }) ∧
      (∀ w ∈ c9Final.ws, w.phase = Phase.exited) ∧
        (c9Final.sink : Multiset (List Nat)) = 0 ∧ c9Final.count = 0 := by
  have h := C9_failed_enumeration_recoverable c9Cfg c9Mid [] []
    (childPath (wstr "R") (wstr "A")) [] (by decide)
  exact ⟨h.1, h.2 1 c9Seed c9Final (by decide) c9Reach (by decide) c9Terminal⟩

/-- **C1 (amended).** For every finite directory tree, every configuration
and every complete run, the multiset of lines written to the sink equals
the canonical output `totalLines` of the queue seeded by
`initialize_directory_queue` — a quantity depending only on the tree and
the configuration, so the set of output lines does not depend on the
worker-pool size or on the schedule; and when the root listing is
well-formed (distinct sibling names, no separators in names) and the UTF-8
conversion is injective on accepted paths, no line is written twice.

The claim's original quantification over *all files under the root* fails:
a file directly in the root passes both filters but is never written,
because the seeding enqueues only directories and the root itself is never
enumerated by a worker (see the counterexample). -/
theorem C1_output_exactly_once_schedule_independent (cfg : Config)
    (root : WStr) (rootL : FSListing) (W : Nat) (seed : List Pending)
    (hseed : seed = initialize_directory_queue cfg root rootL)
    (s : ScanState) (hr : Reach cfg W seed s) (ht : Terminal cfg s)
    (hW : 0 < W) :
    (s.sink : Multiset (List Nat)) =
        (totalLines cfg seed : Multiset (List Nat)) ∧
      (listingWFb rootL = true →
        (∀ a b c, cfg.utf8 a = some c → cfg.utf8 b = some c → a = b) →
        s.sink.Nodup) := by
  subst hseed
  refine ⟨(terminal_sink hr ht hW).1, ?_⟩
  intro hwf hinj
  have hnd := totalLines_nodup cfg root rootL hwf hinj
  have hperm := Multiset.coe_eq_coe.1 (terminal_sink hr ht hW).1
  exact hperm.nodup_iff.2 hnd

theorem C1_witness :
    ((exFinal.sink : Multiset (List Nat)) =
        (totalLines exCfg exSeed : Multiset (List Nat)) ∧
      (listingWFb exRootL = true →
        (∀ a b c, exCfg.utf8 a = some c → exCfg.utf8 b = some c → a = b) →
        exFinal.sink.Nodup)) ∧ exFinal.sink.Nodup := by
  have h := C1_output_exactly_once_schedule_independent exCfg (wstr "R")
    exRootL 1 exSeed rfl exFinal exReach exTerminal (by decide)
  refine ⟨h, h.2 (by decide) ?_⟩
  intro a b c ha hb
  simp only [exCfg, Option.some.injEq] at ha hb
  rw [ha, hb]

/-- Counterexample filesystem for C1: the root contains the subdirectory
`A/` (empty) and the root-level file `f.txt`. -/
def c1RootL : FSListing :=
  .lcons (.dir (wstr "A") .lnil) (.lcons (.file (wstr "f.txt")) .lnil)

/-- Empty folder filter and empty extension list: both filters accept
everything. -/
def c1Cfg : Config := ⟨[], [], 5000, fun p => some p⟩

def c1Seed : List Pending := initialize_directory_queue c1Cfg (wstr "R") c1RootL

def c1Final : ScanState := runSteps c1Cfg 10 (initState 1 c1Seed)

theorem c1Reach : Reach c1Cfg 1 c1Seed c1Final :=
  runSteps_reach c1Cfg 1 c1Seed 10 (initState 1 c1Seed) .refl

/-- **C1, counterexample to the claim as stated.**  In the complete
one-worker run on this tree, the root-level file `R\f.txt` passes the
extension filter (the list is empty) and has no ancestor subdirectory to
fail the prefix filter, yet its path appears zero times — not exactly
once — in the output: the sink of the terminal state is empty. -/
theorem C1_counterexample :
    Reach c1Cfg 1 c1Seed c1Final ∧ Terminal c1Cfg c1Final ∧
      extFilter c1Cfg.fileTypes (childPath (wstr "R") (wstr "f.txt")) = true ∧
      c1Cfg.utf8 (childPath (wstr "R") (wstr "f.txt")) =
        some (childPath (wstr "R") (wstr "f.txt")) ∧
      c1Final.sink = [] := by
  refine ⟨c1Reach, terminal_of (by decide) (by decide) (by decide),
    by decide, rfl, by decide⟩

/-- **C5 (amended).** A subdirectory discovered below the top level is
enqueued for traversal iff its full path contains the configured folder
filter as a substring under the *case-sensitive* comparison performed by
`std::wstring::find` (`deepFilter`) — not the case-insensitive one the
specification describes; a subdirectory failing this check is neither
enqueued nor contributes any descendant file to the canonical output. -/
theorem C5_deep_filter_enqueue_iff (cfg : Config) (d n : WStr)
    (l : FSListing) (hdot : isDotName n = false) :
    ((procEntry cfg d (.dir n l)).1 = [(childPath d n, some l)] ↔
        deepFilter cfg.pfx (childPath d n) = true) ∧
      (deepFilter cfg.pfx (childPath d n) = false →
        procEntry cfg d (.dir n l) = ([], []) ∧
          entryLines cfg d (.dir n l) = [] ∧
          entryPaths cfg d (.dir n l) = []) := by
  constructor
  · constructor
    · intro h
      by_contra hf
      simp only [Bool.not_eq_true] at hf
      simp [procEntry, hdot, hf] at h
    · intro h
      simp [procEntry, hdot, h]
  · intro hf
    refine ⟨?_, ?_, ?_⟩
    all_goals simp [procEntry, entryLines, entryPaths, hdot, hf]

/-- The children of the `B` subdirectory in the C5 counterexample. -/
def c5BsubL : FSListing := .lcons (.file (wstr "c.txt")) .lnil

/-- Counterexample filesystem for C5: `R\A\B\c.txt`. -/
def c5RootL : FSListing :=
  .lcons (.dir (wstr "A") (.lcons (.dir (wstr "B") c5BsubL) .lnil)) .lnil

/-- Lower-case folder filter `a`: the top-level check is case-insensitive
(`A` matches), the deeper check is not. -/
def c5Cfg : Config := ⟨wstr "a", [], 5000, fun p => some p⟩

def c5Seed : List Pending := initialize_directory_queue c5Cfg (wstr "R") c5RootL

def c5Final : ScanState := runSteps c5Cfg 12 (initState 1 c5Seed)

theorem c5Reach : Reach c5Cfg 1 c5Seed c5Final :=
  runSteps_reach c5Cfg 1 c5Seed 12 (initState 1 c5Seed) .refl

/-- **C5, counterexample to the claim as stated.**  The full path `R\A\B`
contains the configured filter `a` under a case-insensitive comparison
(`deepFilterCI`), so the claim says `R\A\B` is enqueued; the code's
case-sensitive `find` does not see it (`deepFilter` is false), the
subdirectory is not enqueued, and the complete run outputs nothing — its
descendant `c.txt` is never visited. -/
theorem C5_counterexample :
    deepFilterCI c5Cfg.pfx (childPath (wstr "R\\A") (wstr "B")) = true ∧
      deepFilter c5Cfg.pfx (childPath (wstr "R\\A") (wstr "B")) = false ∧
      (procEntry c5Cfg (wstr "R\\A") (.dir (wstr "B") c5BsubL)).1 = [] ∧
      Reach c5Cfg 1 c5Seed c5Final ∧ Terminal c5Cfg c5Final ∧
      c5Final.sink = [] := by
  refine ⟨by decide, by decide, by decide, c5Reach,
    terminal_of (by decide) (by decide) (by decide), by decide⟩

theorem C5_witness :
    ((procEntry c5Cfg (wstr "R\\A") (.dir (wstr "B") c5BsubL)).1 =
        [(childPath (wstr "R\\A") (wstr "B"), some c5BsubL)] ↔
      deepFilter c5Cfg.pfx (childPath (wstr "R\\A") (wstr "B")) = true) ∧
      procEntry c5Cfg (wstr "R\\A") (.dir (wstr "B") c5BsubL) = ([], []) := by
  have h := C5_deep_filter_enqueue_iff c5Cfg (wstr "R\\A") (wstr "B") c5BsubL
    (by decide)
  exact ⟨h.1, (h.2 (by decide)).1⟩

/-- Scenario filesystem of C6: the root contains `A\doc1.txt`,
`B\x.txt` and the root-level file `file1.txt`. -/
def c6RootL : FSListing :=
  .lcons (.dir (wstr "A") (.lcons (.file (wstr "doc1.txt")) .lnil))
    (.lcons (.dir (wstr "B") (.lcons (.file (wstr "x.txt")) .lnil))
      (.lcons (.file (wstr "file1.txt")) .lnil))

/-- The scenario configuration: folder filter `A`, extensions `txt`. -/
def c6Cfg : Config := ⟨wstr "A", [wstr "txt"], 5000, fun p => some p⟩

def c6Seed : List Pending := initialize_directory_queue c6Cfg (wstr "R") c6RootL

def c6Final : ScanState := runSteps c6Cfg 12 (initState 1 c6Seed)

theorem c6Reach : Reach c6Cfg 1 c6Seed c6Final :=
  runSteps_reach c6Cfg 1 c6Seed 12 (initState 1 c6Seed) .refl

theorem c6Terminal : Terminal c6Cfg c6Final :=
  terminal_of (by decide) (by decide) (by decide)

/-- **C6 (amended).** With prefix `A` and extensions `txt` on a root
containing `A\doc1.txt`, `B\x.txt` and `file1.txt`, every complete run —
any worker count, any schedule — outputs exactly the single line
`R\A\doc1.txt`: nothing under the pruned `B` appears, and `file1.txt` does
*not* appear either, because the seeding enqueues only directories, so
root-level files are never enumerated. -/
theorem C6_scenario_prefix_A (W : Nat) (s : ScanState)
    (hr : Reach c6Cfg W c6Seed s) (ht : Terminal c6Cfg s) (hW : 0 < W) :
    (s.sink : Multiset (List Nat)) = {wstr "R\\A\\doc1.txt"} ∧
      wstr "R\\B\\x.txt" ∉ s.sink ∧ wstr "R\\file1.txt" ∉ s.sink := by
  have h := (terminal_sink hr ht hW).1
  have htot : totalLines c6Cfg c6Seed = [wstr "R\\A\\doc1.txt"] := by decide
  rw [htot] at h
  refine ⟨by rw [h, Multiset.coe_singleton], ?_, ?_⟩
  · intro hin
    have h2 := (Multiset.coe_eq_coe.1 h).mem_iff.1 hin
    simp only [List.mem_singleton] at h2
    exact absurd h2 (by decide)
  · intro hin
    have h2 := (Multiset.coe_eq_coe.1 h).mem_iff.1 hin
    simp only [List.mem_singleton] at h2
    exact absurd h2 (by decide)

theorem C6_witness :
    (c6Final.sink : Multiset (List Nat)) = {wstr "R\\A\\doc1.txt"} ∧
      wstr "R\\B\\x.txt" ∉ c6Final.sink ∧
      wstr "R\\file1.txt" ∉ c6Final.sink :=
  C6_scenario_prefix_A 1 c6Final c6Reach c6Terminal (by decide)

/-- **C6, counterexample to the claim as stated.**  The claim asserts that
`file1.txt` at the root is included in the output; in the complete run it
passes the extension filter yet never appears: root-level files are never
enumerated by any worker. -/
theorem C6_counterexample :
    Reach c6Cfg 1 c6Seed c6Final ∧ Terminal c6Cfg c6Final ∧
      extFilter c6Cfg.fileTypes (childPath (wstr "R") (wstr "file1.txt")) = true ∧
      wstr "R\\file1.txt" ∉ c6Final.sink := by
  exact ⟨c6Reach, c6Terminal, by decide, by decide⟩

theorem takeWhile_append_stop {p : Nat → Bool} :
    ∀ (xs ys : List Nat), (∃ x ∈ xs, p x = false) →
      (xs ++ ys).takeWhile p = xs.takeWhile p
  | [], _, h => by simp at h
  | x :: xs, ys, h => by
      cases hp : p x with
      | false => simp [List.takeWhile_cons, hp]
      | true =>
          simp only [List.cons_append, List.takeWhile_cons, hp, if_true]
          have hex : ∃ y ∈ xs, p y = false := by
            obtain ⟨y, hy, hpy⟩ := h
            rcases List.mem_cons.1 hy with rfl | hy'
            · rw [hp] at hpy; cases hpy
            · exact ⟨y, hy', hpy⟩
          rw [takeWhile_append_stop xs ys hex]

theorem takeWhile_all {p : Nat → Bool} :
    ∀ xs : List Nat, (∀ x ∈ xs, p x = true) → xs.takeWhile p = xs
  | [], _ => rfl
  | x :: xs, h => by
      have hx := h x (List.mem_cons_self x xs)
      simp only [List.takeWhile_cons, hx, if_true]
      rw [takeWhile_all xs (fun y hy => h y (List.mem_cons_of_mem x hy))]

/-- When the file name contains a dot, the code's suffix-after-last-dot of
the *full path* agrees with the suffix-after-last-dot of the name. -/
theorem afterLastDot_childPath_of_dot {d n : WStr} (h : 46 ∈ n) :
    afterLastDot (childPath d n) = afterLastDot n := by
  unfold afterLastDot childPath
  rw [show (d ++ 92 :: n).reverse = n.reverse ++ 92 :: d.reverse by
        simp [List.reverse_append]]
  rw [takeWhile_append_stop]
  exact ⟨46, List.mem_reverse.2 h, by simp⟩

/-- When the whole string contains no dot, `find_last_of` returns `npos`,
`npos + 1` wraps to `0`, and `substr(0)` returns the whole string. -/
theorem afterLastDot_no_dot {s : WStr} (h : 46 ∉ s) : afterLastDot s = s := by
  unfold afterLastDot
  rw [takeWhile_all]
  · exact List.reverse_reverse s
  · intro x hx
    have hxs : x ∈ s := List.mem_reverse.1 hx
    have hne : x ≠ 46 := fun hh => h (hh ▸ hxs)
    simpa using hne

theorem towlower_eq_92 {x : Nat} (h : towlower x = 92) : x = 92 := by
  unfold towlower at h
  split at h
  · next hc => omega
  · exact h

/-- **C7 (amended).** The extension compared against the configured list is
the substring of the *full path* after its last `'.'`: when the file name
contains a dot this coincides with the name's extension, but when the full
path contains no dot at all, the unguarded `find_last_of + 1` computation
degrades to the entire path.  Such a path contains the separator `'\\'`,
so it can never case-insensitively equal a configured extension that
contains no separator — in particular a file named `archive` under filter
`["zip"]` is never emitted — but the "never matches a non-empty filter"
reading of the claim is false for a filter entry that spells out the whole
path (see the counterexample). -/
theorem C7_extension_uses_full_path (types : List WStr) (d n : WStr) :
    (46 ∈ n → afterLastDot (childPath d n) = afterLastDot n) ∧
      (46 ∉ childPath d n → afterLastDot (childPath d n) = childPath d n) ∧
      (types ≠ [] → (∀ ext ∈ types, 92 ∉ ext) → 46 ∉ n → 46 ∉ d →
        extFilter types (childPath d n) = false) := by
  refine ⟨fun h => afterLastDot_childPath_of_dot h,
    fun h => afterLastDot_no_dot h, ?_⟩
  intro hne hexts hn hd
  have hnodot : 46 ∉ childPath d n := by
    simp only [childPath, List.mem_append, List.mem_cons]
    rintro (h | h | h)
    · exact hd h
    · simp at h
    · exact hn h
  have h1 : (types == []) = false := by
    simpa using hne
  simp only [extFilter, afterLastDot_no_dot hnodot, h1, Bool.false_or]
  rw [List.any_eq_false]
  intro ext hext
  have h92in : (92 : Nat) ∈ lowerW (childPath d n) := by
    simp only [lowerW, List.mem_map]
    exact ⟨92, by simp [childPath], by decide⟩
  have h92out : (92 : Nat) ∉ lowerW ext := by
    simp only [lowerW, List.mem_map]
    rintro ⟨x, hx, hlx⟩
    exact hexts ext hext (towlower_eq_92 hlx ▸ hx)
  have hne2 : lowerW (childPath d n) ≠ lowerW ext :=
    fun hh => h92out (hh ▸ h92in)
  simpa [wcsicmpEq] using hne2

/-- The claim's own scenario holds: a dotless `archive` under filter
`["zip"]` is never emitted. -/
theorem C7_witness :
    extFilter [wstr "zip"] (childPath (wstr "R\\A") (wstr "archive")) = false :=
  (C7_extension_uses_full_path [wstr "zip"] (wstr "R\\A") (wstr "archive")).2.2
    (by decide) (by decide) (by decide) (by decide)

/-- Counterexample filesystem for C7: `R\A\archive`, a file whose name has
no extension. -/
def c7RootL : FSListing :=
  .lcons (.dir (wstr "A") (.lcons (.file (wstr "archive")) .lnil)) .lnil

/-- A non-empty extension filter whose single entry spells out the full
path of the dotless file. -/
def c7Cfg : Config := ⟨[], [wstr "R\\A\\archive"], 5000, fun p => some p⟩

def c7Seed : List Pending := initialize_directory_queue c7Cfg (wstr "R") c7RootL

def c7Final : ScanState := runSteps c7Cfg 10 (initState 1 c7Seed)

theorem c7Reach : Reach c7Cfg 1 c7Seed c7Final :=
  runSteps_reach c7Cfg 1 c7Seed 10 (initState 1 c7Seed) .refl

/-- **C7, counterexample to the claim as stated.**  The file `archive`
contains no `'.'` in its name, the configured extension filter
`["R\A\archive"]` is non-empty, and yet the file appears in the output of
the complete run: with no dot anywhere in the path, the code compares the
*whole path* against each configured extension. -/
theorem C7_counterexample :
    c7Cfg.fileTypes ≠ [] ∧ (46 : Nat) ∉ wstr "archive" ∧
      Reach c7Cfg 1 c7Seed c7Final ∧ Terminal c7Cfg c7Final ∧
      wstr "R\\A\\archive" ∈ c7Final.sink := by
  refine ⟨by decide, by decide, c7Reach,
    terminal_of (by decide) (by decide) (by decide), by decide⟩

/-- **C8 (amended).** Directory-attributed entries named `.` or `..` are
skipped by the worker enumeration loop of all three programs
(`procEntry`), and by the seeding loop of the two scanners with
extension-filter support (`seedEntry`): they are never enqueued.  The
seeding loop of `fast_scan4.cpp` has no such skip — it applies only the
prefix filter to them, so with an empty prefix it enqueues `root\.` and
`root\..` (see the counterexample). -/
theorem C8_dot_entries_never_enqueued (cfg : Config) (root d n : WStr)
    (l : FSListing) (hdot : isDotName n = true) :
    seedEntry cfg root (.dir n l) = [] ∧
      seedEntry cfg root (.dirFail n) = [] ∧
      procEntry cfg d (.dir n l) = ([], []) ∧
      procEntry cfg d (.dirFail n) = ([], []) := by
  refine ⟨?_, ?_, ?_, ?_⟩
  all_goals simp [seedEntry, procEntry, hdot]

theorem C8_witness :
    seedEntry exCfg (wstr "R") (.dir (wstr ".") .lnil) = [] ∧
      seedEntry exCfg (wstr "R") (.dirFail (wstr ".")) = [] ∧
      procEntry exCfg (wstr "R") (.dir (wstr ".") .lnil) = ([], []) ∧
      procEntry exCfg (wstr "R") (.dirFail (wstr ".")) = ([], []) :=
  C8_dot_entries_never_enqueued exCfg (wstr "R") (wstr "R") (wstr ".") .lnil
    (by decide)

/-- Counterexample root listing for C8: one real subdirectory `A`. -/
def c8RootL : FSListing := .lcons (.dir (wstr "A") .lnil) .lnil

/-- **C8, counterexample to the claim as stated.**  The seeding enumeration
of `fast_scan4.cpp` does not skip the `.`/`..` self-references: with an
empty prefix both `R\.` and `R\..` are pushed onto the work queue, so the
root itself and the root's parent get traversed. -/
theorem C8_counterexample :
    isDotName (wstr ".") = true ∧ isDotName (wstr "..") = true ∧
      childPath (wstr "R") (wstr ".") ∈
        (fastScan4Seed [] (wstr "R") c8RootL).map Prod.fst ∧
      childPath (wstr "R") (wstr "..") ∈
        (fastScan4Seed [] (wstr "R") c8RootL).map Prod.fst := by
  decide

end FileScanner
